import Mathlib

/-!
Shallow embedding of the supervising layer of `check_card_gui.py`:
the options-schema parser, the flash-progress estimator, the per-run
event emission of `WorkflowRunTask`, the run-URL extraction, the
`start`-idempotence logic of `MainWindow._start_workflow_for_device`,
and the inventory reconciliation of `MainWindow.refresh_devices` /
`MainWindow._forget_removed_devices`.

Strings are processed at the `List Char` level (Lean's `String` is a
wrapper around `List Char`), mirroring the Python string operations
used by the source.  Process output is modelled at line granularity:
each arriving chunk is a list of complete lines (the code always
re-scans the full accumulated buffer, so line-aligned chunking is the
arrival model for the stream-level claims), while the transfer-marker
regex is scanned over the joined character stream, since its whitespace
classes let a marker span line boundaries.  Python's float quotient
`int(transferred * 100 / total)` is modelled as exact natural floor
division.
-/

namespace CheckCardGui

/-! ### Character-level string helpers (Python `strip`, `startswith`, `splitlines`) -/

/-- The whitespace characters stripped by Python's `str.strip` (ASCII subset). -/
def isWs (c : Char) : Bool :=
  c = ' ' || c = '\t' || c = '\n' || c = '\r' || c = '\x0b' || c = '\x0c'

/-- Python `str.strip` on a character list. -/
def stripChars (cs : List Char) : List Char :=
  ((cs.dropWhile isWs).reverse.dropWhile isWs).reverse

/-- Python `str.strip`. -/
def strip (s : String) : String := ⟨stripChars s.data⟩

/-- `p` is a prefix of `cs` (Python `str.startswith`). -/
def startsWithChars (p cs : List Char) : Bool :=
  match p, cs with
  | [], _ => true
  | _ :: _, [] => false
  | a :: ps, c :: rest => a = c && startsWithChars ps rest

/-- Python `str.startswith`. -/
def pyStartsWith (s pre : String) : Bool := startsWithChars pre.data s.data

/-- `p` is a suffix of `cs` (Python `str.endswith`). -/
def endsWithChars (p cs : List Char) : Bool :=
  startsWithChars p.reverse cs.reverse

/-- Python `str.endswith`. -/
def pyEndsWith (s suf : String) : Bool := endsWithChars suf.data s.data

/-- `containsCharList cs pat`: `pat` occurs as a contiguous substring of `cs`
(Python's `pat in s`). -/
def containsCharList (cs pat : List Char) : Bool :=
  match cs with
  | [] => startsWithChars pat []
  | _ :: tl => startsWithChars pat cs || containsCharList tl pat

/-- Python `pat in s`. -/
def pyContains (s pat : String) : Bool := containsCharList s.data pat.data

/-- Python `str.splitlines` (ASCII line terminators `\n`, `\r`, `\r\n`):
no trailing empty line for a trailing terminator. -/
def splitLinesChars : List Char → List Char → List (List Char)
  | [], acc => if acc.isEmpty then [] else [acc.reverse]
  | '\r' :: '\n' :: tl, acc => acc.reverse :: splitLinesChars tl []
  | c :: tl, acc =>
    if c = '\n' || c = '\r' then acc.reverse :: splitLinesChars tl []
    else splitLinesChars tl (c :: acc)

/-- Python `str.splitlines`. -/
def splitlines (s : String) : List String :=
  (splitLinesChars s.data []).map (fun cs => ⟨cs⟩)

/-- Digit run at the front of a character list, as a natural number,
`none` if there is no leading digit. -/
def leadingNat (cs : List Char) : Option Nat :=
  let ds := cs.takeWhile (fun c => c.isDigit)
  if ds.isEmpty then none
  else some (ds.foldl (fun acc c => acc * 10 + (c.toNat - '0'.toNat)) 0)

/-! ### The options-schema parser (`_parse_yaml_scalar`, `parse_workflow_options_yaml`) -/

/-- Value of one hex digit, `none` for a non-hex character
(code points 48-57 are `0`-`9`, 97-102 are `a`-`f`, 65-70 are `A`-`F`). -/
def hexVal (c : Char) : Option Nat :=
  let n := c.toNat
  if 48 ≤ n ∧ n ≤ 57 then some (n - 48)
  else if 97 ≤ n ∧ n ≤ 102 then some (n - 87)
  else if 65 ≤ n ∧ n ≤ 70 then some (n - 55)
  else none

/-- The single-character escapes a JSON string accepts after a backslash,
mapped to the character they denote. -/
def escChar (c : Char) : Option Char :=
  if c = '"' then some '"'
  else if c = '\\' then some '\\'
  else if c = '/' then some '/'
  else if c = 'b' then some '\x08'
  else if c = 'f' then some '\x0c'
  else if c = 'n' then some '\n'
  else if c = 'r' then some '\r'
  else if c = 't' then some '\t'
  else none

/-- Body of a JSON string after the opening quote: `json.loads` on a quoted
scalar.  Returns `none` exactly where `json.loads` raises `JSONDecodeError`:
unterminated string, trailing data after the closing quote, a bare control
character, or an invalid escape.  (`\uXXXX` is mapped through `Char.ofNat`.) -/
def jsonStringBody : List Char → List Char → Option (List Char)
  | [], _ => none
  | '"' :: rest, acc => if rest.isEmpty then some acc.reverse else none
  | '\\' :: 'u' :: a :: b :: c :: d :: tl, acc =>
    match hexVal a, hexVal b, hexVal c, hexVal d with
    | some ha, some hb, some hc, some hd =>
      jsonStringBody tl (Char.ofNat (((ha * 16 + hb) * 16 + hc) * 16 + hd) :: acc)
    | _, _, _, _ => none
  | '\\' :: e :: tl, acc =>
    match escChar e with
    | some c => jsonStringBody tl (c :: acc)
    | none => none
  | '\\' :: _, _ => none
  | c :: rest, acc => if c.toNat < 0x20 then none else jsonStringBody rest (c :: acc)

/-- `json.loads` applied to a value that starts with `"`. -/
def jsonLoadsQuoted (v : List Char) : Option (List Char) :=
  match v with
  | '"' :: rest => jsonStringBody rest []
  | _ => none

/-- The scalar values `_parse_yaml_scalar` can produce. -/
inductive Scalar where
  | str (v : String)
  | bool (v : Bool)
  | null
  deriving DecidableEq

/-- `_parse_yaml_scalar` (check_card_gui.py lines 109-120). -/
def parse_yaml_scalar (value : String) : Scalar :=
  let v := stripChars value.data
  if v.isEmpty then .str ""
  else if v = "true".data then .bool true
  else if v = "false".data then .bool false
  else if v = "null".data then .null
  else if startsWithChars "\"".data v && endsWithChars "\"".data v then
    match jsonLoadsQuoted v with
    | some cs => .str ⟨cs⟩
    | none => .str ⟨(v.drop 1).dropLast⟩
  else .str ⟨v⟩

/-- A value stored in a field descriptor: a scalar attribute, or the
enumerated `options` choice list. -/
inductive YVal where
  | scalar (v : Scalar)
  | options (l : List Scalar)
  deriving DecidableEq

/-- Python-dict upsert on an insertion-ordered association list:
replaces in place if the key exists, otherwise appends at the end. -/
def dictSet {α : Type} (m : List (String × α)) (k : String) (v : α) : List (String × α) :=
  match m with
  | [] => [(k, v)]
  | (k', v') :: rest => if k' = k then (k, v) :: rest else (k', v') :: dictSet rest k v

/-- Python-dict lookup on an association list. -/
def dictGet {α : Type} (m : List (String × α)) (k : String) : Option α :=
  match m with
  | [] => none
  | (k', v') :: rest => if k' = k then some v' else dictGet rest k

/-- `s.split(":", 1)`: the part before the first colon and the remainder. -/
def splitOnceColon (cs : List Char) : List Char × List Char :=
  match cs with
  | [] => ([], [])
  | c :: tl => if c = ':' then ([], tl) else
      let p := splitOnceColon tl
      (c :: p.1, p.2)

/-- The loop state of `parse_workflow_options_yaml`. -/
structure ParserSt where
  inputs : List (String × List (String × YVal))
  inInputs : Bool
  currentInput : Option String
  currentKey : Option String

/-- One iteration of the line loop of `parse_workflow_options_yaml`
(check_card_gui.py lines 130-170).  The boolean result is the `break`
triggered by a first-level `\x7b\x7d` line. -/
def processLine (st : ParserSt) (rawLine : String) : Except String (ParserSt × Bool) :=
  let rawCs := rawLine.data
  if (stripChars rawCs).isEmpty then .ok (st, false)
  else if !st.inInputs then
    if stripChars rawCs = "inputs:".data then .ok ({ st with inInputs := true }, false)
    else .ok (st, false)
  else if startsWithChars "  ".data rawCs && !startsWithChars "    ".data rawCs then
    let line := stripChars rawCs
    if line = "\x7b\x7d".data then .ok (st, true)
    else if endsWithChars ":".data line then
      let name : String := ⟨line.dropLast⟩
      .ok ({ st with inputs := dictSet st.inputs name [],
                     currentInput := some name, currentKey := none }, false)
    else .ok (st, false)
  else
    match st.currentInput with
    | none => .ok (st, false)
    | some ci =>
      let stripped := stripChars rawCs
      if startsWithChars "    ".data rawCs &&
         (endsWithChars ":".data stripped && !(stripped.dropLast.contains ':')) then
        let key : String := ⟨stripped.dropLast⟩
        if key = "options" then
          match dictGet st.inputs ci with
          | none => .error "KeyError"
          | some fld =>
            .ok ({ st with inputs := dictSet st.inputs ci (dictSet fld "options" (.options [])),
                           currentKey := some key }, false)
        else .ok ({ st with currentKey := some key }, false)
      else if startsWithChars "    ".data rawCs && stripped.contains ':' then
        match dictGet st.inputs ci with
        | none => .error "KeyError"
        | some fld =>
          let p := splitOnceColon stripped
          .ok ({ st with
                 inputs := dictSet st.inputs ci
                   (dictSet fld ⟨stripChars p.1⟩ (.scalar (parse_yaml_scalar ⟨p.2⟩))),
                 currentKey := none }, false)
      else if startsWithChars "      - ".data rawCs && st.currentKey = some "options" then
        match dictGet st.inputs ci with
        | none => .error "KeyError"
        | some fld =>
          let item : String := ⟨stripChars (stripped.drop 2)⟩
          let newFld :=
            match dictGet fld "options" with
            | none => dictSet fld "options" (.options [parse_yaml_scalar item])
            | some (.options l) => dictSet fld "options" (.options (l ++ [parse_yaml_scalar item]))
            | some _ => fld
          .ok ({ st with inputs := dictSet st.inputs ci newFld }, false)
      else .ok (st, false)

/-- The line loop of `parse_workflow_options_yaml`. -/
def parseLinesGo : ParserSt → List String → Except String (List (String × List (String × YVal)))
  | st, [] => .ok st.inputs
  | st, l :: ls =>
    match processLine st l with
    | .error e => .error e
    | .ok (st', true) => .ok st'.inputs
    | .ok (st', false) => parseLinesGo st' ls

/-- `parse_workflow_options_yaml` (check_card_gui.py lines 123-172), with the
Python `KeyError` sites made explicit in an `Except` result. -/
def parse_workflow_options_yaml (text : String) :
    Except String (List (String × List (String × YVal))) :=
  parseLinesGo { inputs := [], inInputs := false, currentInput := none, currentKey := none }
    (splitlines text)

/-! ### The progress estimator (`WorkflowRunTask._update_flash_progress`) -/

/-- Scan a character list for the first occurrence of
`FLASH_IMAGE_SIZE_BYTES=<digits>` (the regex
`FLASH_IMAGE_SIZE_BYTES=(\d+)` under `re.search`), returning the integer. -/
def findSizeInChars : List Char → Option Nat
  | [] => none
  | c :: tl =>
    (if startsWithChars "FLASH_IMAGE_SIZE_BYTES=".data (c :: tl) then
       leadingNat ((c :: tl).drop "FLASH_IMAGE_SIZE_BYTES=".length)
     else none).orElse (fun _ => findSizeInChars tl)

/-- A word character for the regex `\b` boundary: `[A-Za-z0-9_]`. -/
def wordChar (c : Char) : Bool := c.isAlphanum || c = '_'

/-- Does `transferred` occur in `cs` with a word boundary on both sides,
where `prevIsWord` says whether the character just before `cs` is a word
character (the `\btransferred\b` part of the transfer regex)? -/
def hasTransferredWord : Bool → List Char → Bool
  | _, [] => false
  | prevIsWord, c :: tl =>
    (!prevIsWord && startsWithChars "transferred".data (c :: tl) &&
      (match (c :: tl).drop "transferred".length with
       | [] => true
       | d :: _ => !wordChar d)) ||
    hasTransferredWord (wordChar c) tl

/-- The tail of a transfer-regex match after the captured digit run:
`\s+bytes\b[^\r\n]*\btransferred\b`, i.e. at least one whitespace
character (newlines included, so the marker may span lines), then
`bytes` with a word boundary, then a word-bounded `transferred` later on
the same line as `bytes`.  Greediness never backtracks usefully here
because whitespace, digits and the literal `bytes` are disjoint
character classes. -/
def transferTail (after : List Char) : Bool :=
  match after with
  | [] => false
  | c :: _ =>
    isWs c &&
    (let afterWs := after.dropWhile isWs
     startsWithChars "bytes".data afterWs &&
     (let afterBytes := afterWs.drop "bytes".length
      match afterBytes with
      | [] => false
      | d :: _ =>
        !wordChar d &&
        hasTransferredWord true (afterBytes.takeWhile (fun e => !(e = '\r' || e = '\n')))))

/-- `re.findall` of the transfer regex
`(?:^|[\r\n])\s*(\d+)\s+bytes\b[^\r\n]*\btransferred\b` over the
combined character buffer, returning the captured integers in order of
appearance.  `lineWs` records whether every character since the last line
terminator (or the start of the buffer) is whitespace — exactly when the
anchor `(?:^|[\r\n])\s*` can reach the current position; `pending` is
the value of a candidate digit run in progress.  Matches are decided
candidate by candidate: a successful match never consumes a later
candidate's digits (they would need a whitespace-only line prefix, which
nothing inside a match tail has). -/
def transferScan : Bool → Option Nat → List Char → List Nat
  | _, _, [] => []
  | _, some v, c :: rest =>
    if c.isDigit then
      transferScan false (some (v * 10 + (c.toNat - '0'.toNat))) rest
    else
      (if transferTail (c :: rest) then [v] else []) ++
      transferScan (c = '\n' || c = '\r') none rest
  | lineWs, none, c :: rest =>
    if lineWs && c.isDigit then
      transferScan false (some (c.toNat - '0'.toNat)) rest
    else
      transferScan (c = '\n' || c = '\r' || (lineWs && isWs c)) none rest

/-- The transfer values of a combined buffer, in order of appearance. -/
def transferValues (cs : List Char) : List Nat := transferScan true none cs

/-- `dd_matches[-1]`: the most recently appearing transfer value. -/
def lastTransferValue (cs : List Char) : Option Nat :=
  (transferValues cs).getLast?

/-- The raw text of a line-aligned buffer: every line followed by its
newline terminator. -/
def textOfLines (lines : List String) : List Char :=
  (lines.map (fun l => l.data ++ ['\n'])).flatten

/-- The combined buffer `f"{stdout}\n{stderr}"` that
`_update_flash_progress` scans (check_card_gui.py line 425), as one
character stream. -/
def combinedChars (outLines errLines : List String) : List Char :=
  textOfLines outLines ++ '\n' :: textOfLines errLines

/-- The per-run progress state of `WorkflowRunTask`
(`_flash_total_bytes`, `_last_progress_percent`). -/
structure FlashProgressState where
  flashTotalBytes : Option Nat
  lastProgressPercent : Int
  deriving DecidableEq

/-- Fresh progress state of a new task (`None`, `-1`). -/
def initProgress : FlashProgressState := { flashTotalBytes := none, lastProgressPercent := -1 }

/-- `max(0, min(100, int(transferred * 100 / total)))`; the Python float
quotient is modelled as exact natural floor division. -/
def pct (total transferred : Nat) : Int :=
  max 0 (min 100 (Int.ofNat (transferred * 100 / total)))

/-- The size-hint discovery phase of `_update_flash_progress`
(check_card_gui.py lines 426-432): if no total hint is set yet, scan the
combined buffer for the size marker; on first discovery, emit an initial
0% when no percentage was emitted before. -/
def discoverSizeHint (combined : List Char) (st : FlashProgressState) :
    FlashProgressState × List Int :=
  match st.flashTotalBytes with
  | some _ => (st, [])
  | none =>
    match findSizeInChars combined with
    | none => (st, [])
    | some n =>
      if st.lastProgressPercent < 0 then
        ({ flashTotalBytes := some n, lastProgressPercent := 0 }, [0])
      else
        ({ st with flashTotalBytes := some n }, [])

/-- The transfer-percentage phase of `_update_flash_progress`
(check_card_gui.py lines 434-445): with a nonzero total hint (`if not
self._flash_total_bytes: return` treats both `None` and 0 as absent),
take the most recent transfer value, clamp, and emit only on change. -/
def emitTransferPercent (combined : List Char) (st : FlashProgressState) :
    FlashProgressState × List Int :=
  match st.flashTotalBytes with
  | none => (st, [])
  | some t =>
    if t = 0 then (st, [])
    else
      match lastTransferValue combined with
      | none => (st, [])
      | some tr =>
        if pct t tr = st.lastProgressPercent then (st, [])
        else ({ st with lastProgressPercent := pct t tr }, [pct t tr])

/-- `WorkflowRunTask._update_flash_progress` (check_card_gui.py lines
424-445), on the accumulated stdout and stderr buffers given as
line-aligned line lists.  Returns the new state and the
`progress_changed` percentages emitted by this call, in order. -/
def updateFlashProgress (outLines errLines : List String) (st : FlashProgressState) :
    FlashProgressState × List Int :=
  let combined := combinedChars outLines errLines
  let p := discoverSizeHint combined st
  let q := emitTransferPercent combined p.1
  (q.1, p.2 ++ q.2)

/-- One arriving chunk of process output, as a list of complete lines on
one of the two channels. -/
inductive StreamChunk where
  | out (lines : List String)
  | err (lines : List String)
  deriving DecidableEq

/-- Accumulated stdout/stderr buffers of a run, as lines. -/
structure TaskBuffers where
  outLines : List String
  errLines : List String
  deriving DecidableEq

/-- Append a chunk's lines to the buffer it arrived on. -/
def appendChunk (b : TaskBuffers) : StreamChunk → TaskBuffers
  | .out ls => { b with outLines := b.outLines ++ ls }
  | .err ls => { b with errLines := b.errLines ++ ls }

/-- Append a chunk to its buffer and re-run the estimator, as
`_read_stdout` / `_read_stderr` do on every `readyRead` event. -/
def applyChunk (b : TaskBuffers) (st : FlashProgressState) (c : StreamChunk) :
    TaskBuffers × FlashProgressState × List Int :=
  let b' := appendChunk b c
  let r := updateFlashProgress b'.outLines b'.errLines st
  (b', r.1, r.2)

/-- Process a list of chunks in arrival order, collecting every emitted
progress percentage. -/
def runProgressAux (b : TaskBuffers) (st : FlashProgressState) : List StreamChunk → List Int
  | [] => []
  | c :: cs =>
    let r := applyChunk b st c
    r.2.2 ++ runProgressAux r.1 r.2.1 cs

/-- The full progress-percentage trace of a run over its arriving chunks. -/
def progressTrace (chunks : List StreamChunk) : List Int :=
  runProgressAux { outLines := [], errLines := [] } initProgress chunks

/-! ### Run records and run events (`WorkflowRunInfo`, `WorkflowRunTask`) -/

/-- The `WorkflowRunInfo` dataclass (check_card_gui.py lines 342-349). -/
structure WorkflowRunInfo where
  device_path : String
  state : String := "running"
  run_url : String := ""
  stdout : String := ""
  stderr : String := ""
  exit_code : Option Int := none
  deriving DecidableEq

/-- The events a `WorkflowRunTask` emits (its Qt signals). -/
inductive RunEvent where
  | progressChanged (percent : Int)
  | stateChanged (state : String)
  | outputChanged
  | finishedForDevice
  deriving DecidableEq

/-- A signal delivered by the underlying `QProcess` of a run. -/
inductive ProcSignal where
  | finished (exitCode : Int)
  | errorOccurred
  deriving DecidableEq

/-- `WorkflowRunTask._on_finished` (check_card_gui.py lines 447-457), after
the final buffer drain: the updated progress state and the events emitted,
in emission order. -/
def onFinished (st : FlashProgressState) (exitCode : Int) :
    FlashProgressState × List RunEvent :=
  let state := if exitCode = 0 then "done" else "failed"
  let p :=
    if exitCode = 0 && st.lastProgressPercent ≠ 100 then
      ({ st with lastProgressPercent := (100 : Int) }, [RunEvent.progressChanged 100])
    else (st, [])
  (p.1, p.2 ++ [.stateChanged state, .finishedForDevice, .outputChanged])

/-- `WorkflowRunTask._on_error` (check_card_gui.py lines 459-464), after the
buffer drain: emits `failed` and an output update. -/
def onError (st : FlashProgressState) : FlashProgressState × List RunEvent :=
  (st, [.stateChanged "failed", .outputChanged])

/-- Events of `WorkflowRunTask.start` (check_card_gui.py lines 374-397):
a missing workflow script fails the run without entering `running`;
otherwise the run optimistically enters `running` and the process is
started. -/
def startEvents (scriptExists : Bool) : List RunEvent :=
  if scriptExists then [.stateChanged "running"]
  else [.stateChanged "failed", .outputChanged, .finishedForDevice]

/-- Events of the process signals delivered after `start`, threading the
progress state (output chunks are modelled separately: they emit only
`output_changed` / `progress_changed`, never `state_changed`). -/
def signalEventsAux (st : FlashProgressState) : List ProcSignal → List RunEvent
  | [] => []
  | .finished c :: sgs =>
    let r := onFinished st c
    r.2 ++ signalEventsAux r.1 sgs
  | .errorOccurred :: sgs =>
    let r := onError st
    r.2 ++ signalEventsAux r.1 sgs

/-- The full event trace of one run: the `start` events followed by the
events of the delivered process signals (none when the script is missing,
since no process is spawned). -/
def taskRunEvents (scriptExists : Bool) (st : FlashProgressState)
    (sgs : List ProcSignal) : List RunEvent :=
  if scriptExists then startEvents true ++ signalEventsAux st sgs
  else startEvents false

/-- The `state_changed` subsequence of an event trace. -/
def stateChanges (evs : List RunEvent) : List String :=
  evs.filterMap (fun e => match e with | .stateChanged s => some s | _ => none)

/-- A terminal state string. -/
def isTerminal (s : String) : Bool := s = "done" || s = "failed"

/-! ### Run-URL extraction (`WorkflowRunTask._read_stdout`) -/

/-- The run-link test of `_read_stdout` (check_card_gui.py line 411):
the stripped line starts with the public GitHub prefix and contains a
run-link path segment. -/
def isRunUrlLine (l : String) : Bool :=
  pyStartsWith l "https://github.com/" && pyContains l "/actions/runs/"

/-- The `run_url` scan of `_read_stdout` (check_card_gui.py lines 409-412)
over the lines of one or more chunks: every matching stripped line
overwrites `info.run_url`. -/
def scanRunUrl (runUrl : String) (chunkLines : List String) : String :=
  chunkLines.foldl (fun acc line =>
    let l := strip line
    if isRunUrlLine l then l else acc) runUrl

/-! ### Re-entrant start (`MainWindow._start_workflow_for_device`) -/

/-- The aliveness of the two `QProcess` handles a `WorkflowRunTask` owns
(`state() != QProcess.NotRunning`). -/
structure TaskProcs where
  authActive : Bool
  procActive : Bool
  deriving DecidableEq

/-- The busy test used both by `_start_workflow_for_device` and by the
retention step of `refresh_devices`: either of the task's process handles
is not in the `NotRunning` state. -/
def taskBusy (t : TaskProcs) : Bool := t.authActive || t.procActive

/-- A per-device workflow task as the supervisor sees it: its process
handles and its run record. -/
structure TaskModel where
  procs : TaskProcs
  info : WorkflowRunInfo
  deriving DecidableEq

/-- The supervisor's shared mutable state: `_workflow_runs` and
`_workflow_history`. -/
structure SupervisorSt where
  workflowRuns : List (String × TaskModel)
  workflowHistory : List (String × WorkflowRunInfo)
  deriving DecidableEq

/-- What `_start_workflow_for_device` did for the caller. -/
inductive StartOutcome where
  | openedExistingStatus
  | startedNewRun
  deriving DecidableEq

/-- `MainWindow._start_workflow_for_device` (check_card_gui.py lines
785-803).  A fresh task's `auth_process` is constructed but never started
(`NotRunning`), and its workflow process is running after `task.start()`
precisely when the workflow script exists. -/
def startWorkflowForDevice (st : SupervisorSt) (devicePath : String)
    (scriptExists : Bool) : SupervisorSt × StartOutcome :=
  match dictGet st.workflowRuns devicePath with
  | some t =>
    if taskBusy t.procs then (st, .openedExistingStatus)
    else
      let task : TaskModel :=
        { procs := { authActive := false, procActive := scriptExists },
          info := { device_path := devicePath } }
      ({ workflowRuns := dictSet st.workflowRuns devicePath task,
         workflowHistory := dictSet st.workflowHistory devicePath task.info },
       .startedNewRun)
  | none =>
    let task : TaskModel :=
      { procs := { authActive := false, procActive := scriptExists },
        info := { device_path := devicePath } }
    ({ workflowRuns := dictSet st.workflowRuns devicePath task,
       workflowHistory := dictSet st.workflowHistory devicePath task.info },
     .startedNewRun)

/-! ### Inventory reconciliation (`MainWindow.refresh_devices`,
`MainWindow._forget_removed_devices`) -/

/-- One parsed inventory row: device path (the key), size label,
manufacturer label. -/
structure DeviceRow where
  dev : String
  size : String
  manufacturer : String
  deriving DecidableEq

/-- The reconciler's persistent state: `_last_devices` and
`_last_device_rows` (both `None` before the first successful poll). -/
structure InventorySt where
  lastDevices : Option (List String)
  lastDeviceRows : Option (List DeviceRow)
  deriving DecidableEq

/-- Insert into a `≤`-sorted list of strings. -/
def insertSorted (x : String) : List String → List String
  | [] => [x]
  | y :: ys => if x ≤ y then x :: y :: ys else y :: insertSorted x ys

/-- `sorted(...)` on device keys. -/
def sortStrings (l : List String) : List String := l.foldr insertSorted []

/-- The dict comprehension
`{dev: (dev, size, manufacturer) for ... in (self._last_device_rows or [])}`:
the last row for a key wins. -/
def lastRowFor (rows : List DeviceRow) (d : String) : Option DeviceRow :=
  (rows.filter (fun r => r.dev = d)).getLast?

/-- The retention re-insertion loop (check_card_gui.py lines 725-730):
append a synthesized row for each retained device whose key is not yet in
the current set.  `devices` and `current_devices` are appended in
lockstep, so one list serves as both. -/
def reinsertRetained (previousRows : List DeviceRow) :
    List String → List DeviceRow × List String → List DeviceRow × List String
  | [], acc => acc
  | d :: ds, acc =>
    let row := (lastRowFor previousRows d).getD { dev := d, size := "", manufacturer := "" }
    if row.dev ∈ acc.2 then reinsertRetained previousRows ds acc
    else reinsertRetained previousRows ds (acc.1 ++ [row], acc.2 ++ [row.dev])

/-- `removed_devices = previous_devices - current_devices`
(check_card_gui.py line 710); `previous_devices` is a Python set, so
duplicates collapse. -/
def removedKeys (st : InventorySt) (deviceRows : List DeviceRow) : List String :=
  ((st.lastDevices.getD []).dedup).filter (fun d => d ∉ deviceRows.map (fun r => r.dev))

/-- `retained_missing_devices` (check_card_gui.py lines 714-720): the
removed keys, in sorted order, whose task has either process handle still
running. -/
def retainedKeys (st : InventorySt) (deviceRows : List DeviceRow)
    (tasks : String → Option TaskProcs) : List String :=
  (sortStrings (removedKeys st deviceRows)).filter (fun d =>
    match tasks d with
    | some t => taskBusy t
    | none => false)

/-- The reconciliation step of `MainWindow.refresh_devices`
(check_card_gui.py lines 703-736) on an already-parsed observed row list:
returns the new inventory state and `devicesToForget` (the keys passed to
`_forget_removed_devices`).  `tasks` is the read-only view of
`_workflow_runs` the reconciler consults. -/
def refreshReconcile (st : InventorySt) (deviceRows : List DeviceRow)
    (tasks : String → Option TaskProcs) : InventorySt × List String :=
  if deviceRows = st.lastDeviceRows.getD [] then (st, [])
  else
    let p := reinsertRetained (st.lastDeviceRows.getD []) (retainedKeys st deviceRows tasks)
      (deviceRows, deviceRows.map (fun r => r.dev))
    ({ lastDevices := some p.2, lastDeviceRows := some p.1 },
     (removedKeys st deviceRows).filter (fun d => d ∉ retainedKeys st deviceRows tasks))

/-- The state-release part of `MainWindow._forget_removed_devices`
(check_card_gui.py lines 849-868), on one of the per-device dictionaries:
every reported key is popped. -/
def forgetRemoved {α : Type} (m : List (String × α)) (removed : List String) :
    List (String × α) :=
  m.filter (fun p => p.1 ∉ removed)

/-! ## Theorems -/

/-- C8: Parsing the document `"inputs:\n  bar:\n    options:\n      - a\n      - b\n"`
yields a mapping containing the field `bar` whose `options` choice list is
exactly the two-element list `["a", "b"]`. -/
theorem C8_parse_options_example :
    parse_workflow_options_yaml "inputs:\n  bar:\n    options:\n      - a\n      - b\n" =
      .ok [("bar", [("options", .options [.str "a", .str "b"])])] := rfl

/-- C7: With `FLASH_IMAGE_SIZE_BYTES=2000` in the output, then a transfer
marker reporting 1000 bytes, then one reporting 2000 bytes, each processed
as it arrives, the estimator emits exactly the percentages 0, 50, 100 in
that order and no other values. -/
theorem C7_estimator_exact_trace :
    progressTrace
      [.out ["FLASH_IMAGE_SIZE_BYTES=2000"],
       .out ["1000 bytes (1 kB) transferred in 1 s"],
       .out ["2000 bytes (2 kB) transferred in 2 s"]] = [0, 50, 100] := rfl

/-- C2: A second `start` call for a device key whose existing run still has
its workflow process active is an idempotent no-op: the supervisor state
(run records and stored `WorkflowRunInfo`) is unchanged, no new process is
spawned, and the caller is only directed to the existing run's status. -/
theorem C2_start_idempotent_for_busy_key (st : SupervisorSt) (k : String)
    (scriptExists : Bool) (t : TaskModel)
    (hlook : dictGet st.workflowRuns k = some t)
    (hproc : t.procs.procActive = true) :
    startWorkflowForDevice st k scriptExists = (st, .openedExistingStatus) := by
  unfold startWorkflowForDevice
  rw [hlook]
  simp [taskBusy, hproc]

/-- Witness for C2 at a concrete busy supervisor state. -/
theorem C2_start_idempotent_for_busy_key_witness :
    startWorkflowForDevice
      { workflowRuns := [("sdb", { procs := { authActive := false, procActive := true },
                                   info := { device_path := "sdb" } })],
        workflowHistory := [] } "sdb" true =
      ({ workflowRuns := [("sdb", { procs := { authActive := false, procActive := true },
                                    info := { device_path := "sdb" } })],
         workflowHistory := [] }, .openedExistingStatus) :=
  C2_start_idempotent_for_busy_key _ _ _
    { procs := { authActive := false, procActive := true }, info := { device_path := "sdb" } }
    (by rfl) (by rfl)

/-- C10: When the process finishes with exit code 0 and no 100% progress
value has been emitted yet (in particular when no size hint or transfer
marker ever appeared), `_on_finished` emits a final 100% progress event
strictly before the terminal `done` state event. -/
theorem C10_final_hundred_before_done (st : FlashProgressState)
    (h : st.lastProgressPercent ≠ 100) :
    onFinished st 0 =
      ({ st with lastProgressPercent := 100 },
       [.progressChanged 100, .stateChanged "done", .finishedForDevice, .outputChanged]) := by
  unfold onFinished
  simp [h]

/-- Witness for C10 at the fresh progress state (no hint, no marker). -/
theorem C10_final_hundred_before_done_witness :
    onFinished initProgress 0 =
      ({ flashTotalBytes := none, lastProgressPercent := 100 },
       [.progressChanged 100, .stateChanged "done", .finishedForDevice, .outputChanged]) :=
  C10_final_hundred_before_done initProgress (by decide)

/-- C3 counterexample: a run started while the workflow script is missing
emits the terminal `failed` state event with no `running` event before it,
refuting the claim that every run's `running` event strictly precedes its
terminal event. -/
theorem C3_counterexample_missing_script :
    stateChanges (taskRunEvents false initProgress []) = ["failed"] ∧
    isTerminal "failed" = true ∧
    "running" ∉ stateChanges (taskRunEvents false initProgress []) := by
  refine ⟨rfl, rfl, ?_⟩
  decide

/-- C3 amended: for a run whose workflow script exists and whose process
delivers exactly one `finished` signal (and no error signal), the
state-changed sequence is exactly `running` followed by one terminal
event, so `running` strictly precedes the unique terminal event. -/
theorem C3_amended_state_order (st : FlashProgressState) (c : Int) :
    stateChanges (taskRunEvents true st [.finished c]) =
      ["running", if c = 0 then "done" else "failed"] := by
  by_cases h : c = 0
  · subst h
    by_cases h2 : st.lastProgressPercent = 100 <;>
      simp [taskRunEvents, startEvents, signalEventsAux, onFinished, stateChanges, h2]
  · simp [taskRunEvents, startEvents, signalEventsAux, onFinished, stateChanges, h]

/-- C6 counterexample: two run-link lines in a chunk; the recorded
`run_url` is the second (last) matching line, not the first, refuting the
claim that the first match is kept. -/
theorem C6_counterexample_last_overwrites :
    isRunUrlLine "https://github.com/o/r/actions/runs/1" = true ∧
    scanRunUrl "" ["https://github.com/o/r/actions/runs/1",
                   "https://github.com/o/r/actions/runs/2"] =
      "https://github.com/o/r/actions/runs/2" ∧
    "https://github.com/o/r/actions/runs/2" ≠ "https://github.com/o/r/actions/runs/1" := by
  refine ⟨rfl, rfl, ?_⟩
  decide

/-- If no stripped line of the chunk matches the run-link test, the
recorded URL is untouched. -/
theorem scanRunUrl_no_match (url : String) (lines : List String)
    (h : (lines.map strip).filter isRunUrlLine = []) : scanRunUrl url lines = url := by
  induction lines generalizing url with
  | nil => rfl
  | cons l ls ih =>
    simp only [List.map_cons, List.filter_cons] at h
    by_cases hm : isRunUrlLine (strip l)
    · simp [hm] at h
    · simp only [hm, Bool.false_eq_true, if_false] at h
      simpa [scanRunUrl, hm] using ih url h

/-- C6 amended: when at least one stripped line over the life of the run
matches the run-link test, the recorded `run_url` is the **last** matching
line; later matching lines overwrite earlier ones. -/
theorem C6_amended_last_match_kept (url : String) (lines : List String)
    (h : (lines.map strip).filter isRunUrlLine ≠ []) :
    some (scanRunUrl url lines) = ((lines.map strip).filter isRunUrlLine).getLast? := by
  induction lines generalizing url with
  | nil => simp at h
  | cons l ls ih =>
    simp only [List.map_cons, List.filter_cons]
    by_cases hm : isRunUrlLine (strip l)
    · simp only [hm, if_true]
      by_cases htail : (ls.map strip).filter isRunUrlLine = []
      · rw [htail]
        have : scanRunUrl url (l :: ls) = strip l := by
          simpa [scanRunUrl, hm] using scanRunUrl_no_match (strip l) ls htail
        rw [this]
        rfl
      · have hc : (strip l :: (ls.map strip).filter isRunUrlLine).getLast? =
            ((ls.map strip).filter isRunUrlLine).getLast? := by
          rw [← List.singleton_append]
          exact List.getLast?_append_of_ne_nil _ htail
        rw [hc]
        simpa [scanRunUrl, hm] using ih (strip l) htail
    · simp only [hm, Bool.false_eq_true, if_false]
      have htail : (ls.map strip).filter isRunUrlLine ≠ [] := by
        simpa [List.filter_cons, hm] using h
      simpa [scanRunUrl, hm] using ih url htail

/-- Witness for C6 amended at a concrete chunk with one matching line. -/
theorem C6_amended_last_match_kept_witness :
    some (scanRunUrl "" ["noise", "https://github.com/o/r/actions/runs/9"]) =
      ((["noise", "https://github.com/o/r/actions/runs/9"].map strip).filter
        isRunUrlLine).getLast? :=
  C6_amended_last_match_kept "" ["noise", "https://github.com/o/r/actions/runs/9"] (by decide)

/-! ### Reconciler lemmas and the C1 / C5 theorems -/

theorem mem_insertSorted {x y : String} {l : List String} :
    x ∈ insertSorted y l ↔ x = y ∨ x ∈ l := by
  induction l with
  | nil => simp [insertSorted]
  | cons a l ih =>
    unfold insertSorted
    by_cases h : y ≤ a
    · simp [h]
    · simp only [h, if_false, List.mem_cons, ih]
      tauto

theorem mem_sortStrings {x : String} {l : List String} : x ∈ sortStrings l ↔ x ∈ l := by
  induction l with
  | nil => simp [sortStrings]
  | cons a l ih =>
    show x ∈ insertSorted a (sortStrings l) ↔ _
    rw [mem_insertSorted, ih]
    simp

theorem lastRowFor_dev {rows : List DeviceRow} {d : String} {r : DeviceRow}
    (h : lastRowFor rows d = some r) : r.dev = d := by
  have hmem : r ∈ rows.filter (fun r => r.dev = d) := by
    obtain ⟨hne, heq⟩ := List.mem_getLast?_eq_getLast (x := r) h
    exact heq ▸ List.getLast_mem hne
  have := (List.mem_filter.mp hmem).2
  simpa using this

/-- The retention loop only ever grows the accepted key list. -/
theorem reinsertRetained_mono (rows : List DeviceRow) (ds : List String)
    (acc : List DeviceRow × List String) {x : String} (hx : x ∈ acc.2) :
    x ∈ (reinsertRetained rows ds acc).2 := by
  induction ds generalizing acc with
  | nil => exact hx
  | cons a ds ih =>
    show x ∈ (if _ ∈ acc.2 then reinsertRetained rows ds acc else _).2
    split
    · exact ih _ hx
    · exact ih _ (List.mem_append_left _ hx)

/-- Every retained key ends up in the accepted key list. -/
theorem reinsertRetained_mem (rows : List DeviceRow) (ds : List String)
    (acc : List DeviceRow × List String) {d : String} (hd : d ∈ ds) :
    d ∈ (reinsertRetained rows ds acc).2 := by
  induction ds generalizing acc with
  | nil => cases hd
  | cons a ds ih =>
    have hdev : ((lastRowFor rows a).getD { dev := a, size := "", manufacturer := "" }).dev = a := by
      cases hlr : lastRowFor rows a with
      | none => rfl
      | some r => simpa using lastRowFor_dev hlr
    rcases List.mem_cons.mp hd with rfl | hd'
    · show d ∈ (if _ ∈ acc.2 then reinsertRetained rows ds acc else _).2
      split
      · next hin => exact reinsertRetained_mono _ _ _ (hdev ▸ hin)
      · exact reinsertRetained_mono _ _ _ (by rw [hdev]; exact List.mem_append_right _ (by simp))
    · show d ∈ (if _ ∈ acc.2 then reinsertRetained rows ds acc else _).2
      split
      · exact ih _ hd'
      · exact ih _ hd'

/-- C1: For every reconciliation step, a device key present in the
previous accepted set but absent from the observed set whose task still
has its workflow process running is retained in the resulting accepted
set and never appears in `devicesToForget`. -/
theorem C1_busy_device_retained (st : InventorySt) (rows : List DeviceRow)
    (tasks : String → Option TaskProcs) (k : String) (t : TaskProcs)
    (htask : tasks k = some t) (hproc : t.procActive = true)
    (hprev : k ∈ st.lastDevices.getD []) (habs : k ∉ rows.map (fun r => r.dev)) :
    k ∈ (refreshReconcile st rows tasks).1.lastDevices.getD [] ∧
    k ∉ (refreshReconcile st rows tasks).2 := by
  unfold refreshReconcile
  split
  · exact ⟨hprev, by simp⟩
  · have hrem : k ∈ removedKeys st rows := by
      simp only [removedKeys, List.mem_filter, List.mem_dedup, decide_eq_true_eq]
      exact ⟨hprev, habs⟩
    have hret : k ∈ retainedKeys st rows tasks := by
      simp only [retainedKeys, List.mem_filter, mem_sortStrings]
      refine ⟨hrem, ?_⟩
      rw [htask]
      simp [taskBusy, hproc]
    constructor
    · exact reinsertRetained_mem _ _ _ hret
    · intro hk
      have := (List.mem_filter.mp hk).2
      simp only [decide_eq_true_eq] at this
      exact this hret

/-- Witness for C1: a device that vanished from the poll while its
workflow process is running stays accepted and is not forgotten. -/
theorem C1_busy_device_retained_witness :
    "sdb" ∈ (refreshReconcile
        { lastDevices := some ["sdb"],
          lastDeviceRows := some [{ dev := "sdb", size := "1G", manufacturer := "X" }] }
        [] (fun d => if d = "sdb" then some { authActive := false, procActive := true }
                     else none)).1.lastDevices.getD [] ∧
    "sdb" ∉ (refreshReconcile
        { lastDevices := some ["sdb"],
          lastDeviceRows := some [{ dev := "sdb", size := "1G", manufacturer := "X" }] }
        [] (fun d => if d = "sdb" then some { authActive := false, procActive := true }
                     else none)).2 :=
  C1_busy_device_retained _ _ _ "sdb" { authActive := false, procActive := true }
    (by rfl) (by rfl) (by simp) (by simp)

/-- C5 counterexample: a key observed in one poll and absent from the
next is forgotten after that single absence (it was present in the first
of the two consecutive observed sets), refuting the two-consecutive-
absences requirement. -/
theorem C5_counterexample_single_absence :
    "sdb" ∈ ([{ dev := "sdb", size := "", manufacturer := "" }] : List DeviceRow).map
        (fun r => r.dev) ∧
    (refreshReconcile
      (refreshReconcile { lastDevices := none, lastDeviceRows := none }
          [{ dev := "sdb", size := "", manufacturer := "" }] (fun _ => none)).1
      [] (fun _ => none)).2 = ["sdb"] := by
  exact ⟨by simp, rfl⟩

/-- C5 amended: a device key is reported in `devicesToForget` (and its
state then released) exactly when the observed rows differ from the last
accepted rows, the key was in the previous accepted set, it is absent
from the single freshly observed set, and no task with a running auth or
workflow process references it.  One absent poll suffices. -/
theorem C5_amended_forget_iff (st : InventorySt) (rows : List DeviceRow)
    (tasks : String → Option TaskProcs) (k : String) :
    k ∈ (refreshReconcile st rows tasks).2 ↔
      (rows ≠ st.lastDeviceRows.getD [] ∧
       k ∈ st.lastDevices.getD [] ∧
       k ∉ rows.map (fun r => r.dev) ∧
       (match tasks k with | some t => taskBusy t | none => false) = false) := by
  unfold refreshReconcile
  split
  · next heq => simp [heq]
  · next hne =>
    simp only [List.mem_filter, decide_eq_true_eq]
    constructor
    · rintro ⟨hrem, hnret⟩
      have hprev := (List.mem_filter.mp hrem).1
      have habs := (List.mem_filter.mp hrem).2
      simp only [List.mem_dedup] at hprev
      simp only [decide_eq_true_eq] at habs
      refine ⟨hne, hprev, habs, ?_⟩
      by_cases hb : (match tasks k with | some t => taskBusy t | none => false) = true
      · exact absurd (by
          simp only [retainedKeys, List.mem_filter, mem_sortStrings]
          exact ⟨hrem, hb⟩) hnret
      · simpa using hb
    · rintro ⟨-, hprev, habs, hbusy⟩
      have hrem : k ∈ removedKeys st rows := by
        simp only [removedKeys, List.mem_filter, List.mem_dedup, decide_eq_true_eq]
        exact ⟨hprev, habs⟩
      refine ⟨hrem, fun hret => ?_⟩
      have := (List.mem_filter.mp hret).2
      rw [hbusy] at this
      cases this

/-! ### Parser robustness (C9) -/

theorem dictGet_dictSet {α : Type} (m : List (String × α)) (k k' : String) (v : α) :
    dictGet (dictSet m k v) k' = if k = k' then some v else dictGet m k' := by
  induction m with
  | nil => by_cases h : k = k' <;> simp [dictSet, dictGet, h]
  | cons p m ih =>
    obtain ⟨a, b⟩ := p
    by_cases h1 : a = k
    · subst h1
      by_cases h2 : a = k' <;> simp [dictSet, dictGet, h2]
    · by_cases h2 : a = k'
      · subst h2
        have hk : ¬ k = a := fun h => h1 h.symm
        simp [dictSet, dictGet, h1, hk]
      · simp [dictSet, dictGet, h1, h2, ih]

/-- The loop invariant of `parse_workflow_options_yaml`: whenever a
current field is open, it has an entry in `inputs` (so the Python dict
indexings cannot raise `KeyError`). -/
def parserInv (st : ParserSt) : Prop :=
  ∀ k, st.currentInput = some k → (dictGet st.inputs k).isSome

theorem parserInv_set_current (st : ParserSt) (ci : String) (v : List (String × YVal))
    (st' : ParserSt) (hinputs : st'.inputs = dictSet st.inputs ci v)
    (hcur : st'.currentInput = some ci) : parserInv st' := by
  intro k hk
  rw [hcur] at hk
  cases hk
  rw [hinputs, dictGet_dictSet]
  simp

theorem processLine_ok (st : ParserSt) (l : String) (hinv : parserInv st) :
    ∃ q, processLine st l = .ok q ∧ parserInv q.1 := by
  cases hci : st.currentInput with
  | none =>
    simp only [processLine, hci]
    split_ifs
    all_goals
      first
      | exact ⟨_, rfl, hinv⟩
      | exact ⟨_, rfl, fun k hk => hinv k hk⟩
      | exact ⟨_, rfl, fun k hk => Option.noConfusion hk⟩
      | exact ⟨_, rfl, parserInv_set_current st _ _ _ rfl rfl⟩
  | some ci =>
    have hsome := hinv ci hci
    cases hGet : dictGet st.inputs ci with
    | none => rw [hGet] at hsome; cases hsome
    | some fld =>
      cases hOpt : dictGet fld "options" with
      | none =>
        simp only [processLine, hci, hGet, hOpt]
        split_ifs
        all_goals
          first
          | exact ⟨_, rfl, hinv⟩
          | exact ⟨_, rfl, fun k hk => hinv k hk⟩
          | exact ⟨_, rfl, fun k hk => by obtain rfl := Option.some.inj hk; rw [hGet]; rfl⟩
          | exact ⟨_, rfl, parserInv_set_current st _ _ _ rfl rfl⟩
      | some v =>
        cases v with
        | scalar s =>
          simp only [processLine, hci, hGet, hOpt]
          split_ifs
          all_goals
            first
            | exact ⟨_, rfl, hinv⟩
            | exact ⟨_, rfl, fun k hk => hinv k hk⟩
            | exact ⟨_, rfl, fun k hk => by obtain rfl := Option.some.inj hk; rw [hGet]; rfl⟩
            | exact ⟨_, rfl, parserInv_set_current st _ _ _ rfl rfl⟩
        | options opts =>
          simp only [processLine, hci, hGet, hOpt]
          split_ifs
          all_goals
            first
            | exact ⟨_, rfl, hinv⟩
            | exact ⟨_, rfl, fun k hk => hinv k hk⟩
            | exact ⟨_, rfl, fun k hk => by obtain rfl := Option.some.inj hk; rw [hGet]; rfl⟩
            | exact ⟨_, rfl, parserInv_set_current st _ _ _ rfl rfl⟩

theorem parseLinesGo_ok (ls : List String) (st : ParserSt) (hinv : parserInv st) :
    ∃ m, parseLinesGo st ls = .ok m := by
  induction ls generalizing st with
  | nil => exact ⟨st.inputs, rfl⟩
  | cons l ls ih =>
    obtain ⟨q, hq, hinv'⟩ := processLine_ok st l hinv
    unfold parseLinesGo
    rw [hq]
    obtain ⟨st', brk⟩ := q
    cases brk
    · exact ih st' hinv'
    · exact ⟨st'.inputs, rfl⟩

/-- C9: For every input string, including malformed or partially
conforming documents, the schema parser returns a (possibly partial or
empty) mapping; none of its internal `KeyError` sites can fire, so no
uncaught exception aborts the parse. -/
theorem C9_parser_total (text : String) :
    ∃ m, parse_workflow_options_yaml text = .ok m := by
  unfold parse_workflow_options_yaml
  exact parseLinesGo_ok (splitlines text) _ (fun k hk => nomatch hk)

/-! ### Progress monotonicity (C4) -/

theorem pct_nonneg (t v : Nat) : 0 ≤ pct t v := le_max_left _ _

theorem pct_le_hundred (t v : Nat) : pct t v ≤ 100 :=
  max_le (by norm_num) (min_le_left _ _)

theorem pct_mono (t : Nat) {v v' : Nat} (h : v ≤ v') : pct t v ≤ pct t v' :=
  max_le_max le_rfl (min_le_min le_rfl
    (Int.ofNat_le.mpr (Nat.div_le_div_right (Nat.mul_le_mul_right _ h))))

/-- The exact characterization of `_last_progress_percent` relative to a
combined buffer: `-1` before the hint is found, else `0` until a transfer
value exists, else the clamped percentage of the most recent value. -/
def progressInvC (comb : List Char) (st : FlashProgressState) : Prop :=
  match st.flashTotalBytes with
  | none => st.lastProgressPercent = -1
  | some t =>
    if t = 0 then st.lastProgressPercent = 0
    else
      match lastTransferValue comb with
      | none => st.lastProgressPercent = 0
      | some v => st.lastProgressPercent = pct t v

/-- Ordering on successive most-recent transfer values: an absent value
precedes anything; once a value is present it must persist and not
decrease. -/
def measureLeB : Option Nat → Option Nat → Bool
  | none, _ => true
  | some _, none => false
  | some w, some u => w ≤ u

/-- One estimator call preserves the state characterization and emits a
non-decreasing continuation of the percentage chain, provided the new
buffer's most recent transfer value does not fall below the old one. -/
theorem updateFlashProgress_step (outL errL : List String) (st : FlashProgressState)
    (oldC : List Char) (hinv : progressInvC oldC st)
    (hsub : measureLeB (lastTransferValue oldC)
      (lastTransferValue (combinedChars outL errL)) = true) :
    progressInvC (combinedChars outL errL) (updateFlashProgress outL errL st).1 ∧
    List.Chain' (· ≤ ·) (st.lastProgressPercent :: (updateFlashProgress outL errL st).2) ∧
    (st.lastProgressPercent :: (updateFlashProgress outL errL st).2).getLast? =
      some (updateFlashProgress outL errL st).1.lastProgressPercent := by
  cases hT : st.flashTotalBytes with
  | none =>
    have hlp : st.lastProgressPercent = -1 := by
      unfold progressInvC at hinv; rw [hT] at hinv; exact hinv
    cases hF : findSizeInChars (combinedChars outL errL) with
    | none =>
      have hd : discoverSizeHint (combinedChars outL errL) st = (st, []) := by
        simp [discoverSizeHint, hT, hF]
      have he : emitTransferPercent (combinedChars outL errL) st = (st, []) := by
        simp [emitTransferPercent, hT]
      refine ⟨?_, by simp [updateFlashProgress, hd, he], by simp [updateFlashProgress, hd, he]⟩
      unfold progressInvC
      simp only [updateFlashProgress, hd, he, hT]
      exact hlp
    | some n =>
      have hd : discoverSizeHint (combinedChars outL errL) st =
          ({ flashTotalBytes := some n, lastProgressPercent := 0 }, [0]) := by
        simp [discoverSizeHint, hT, hF, hlp]
      by_cases hn : n = 0
      · subst hn
        have he : emitTransferPercent (combinedChars outL errL)
            { flashTotalBytes := some 0, lastProgressPercent := 0 } =
            ({ flashTotalBytes := some 0, lastProgressPercent := 0 }, []) := by
          simp [emitTransferPercent]
        refine ⟨?_, ?_, ?_⟩
        · unfold progressInvC
          simp [updateFlashProgress, hd, he]
        · simp [updateFlashProgress, hd, he, hlp]
        · simp [updateFlashProgress, hd, he]
      · cases hv : lastTransferValue (combinedChars outL errL) with
        | none =>
          have he : emitTransferPercent (combinedChars outL errL)
              { flashTotalBytes := some n, lastProgressPercent := 0 } =
              ({ flashTotalBytes := some n, lastProgressPercent := 0 }, []) := by
            simp [emitTransferPercent, hn, hv]
          refine ⟨?_, ?_, ?_⟩
          · unfold progressInvC
            simp only [updateFlashProgress, hd, he, hv, if_neg hn]
          · simp [updateFlashProgress, hd, he, hlp]
          · simp [updateFlashProgress, hd, he]
        | some tr =>
          by_cases hpeq : pct n tr = 0
          · have he : emitTransferPercent (combinedChars outL errL)
                { flashTotalBytes := some n, lastProgressPercent := 0 } =
                ({ flashTotalBytes := some n, lastProgressPercent := 0 }, []) := by
              simp [emitTransferPercent, hn, hv, hpeq]
            refine ⟨?_, ?_, ?_⟩
            · unfold progressInvC
              simp only [updateFlashProgress, hd, he, hv, if_neg hn]
              exact hpeq.symm
            · simp [updateFlashProgress, hd, he, hlp]
            · simp [updateFlashProgress, hd, he]
          · have he : emitTransferPercent (combinedChars outL errL)
                { flashTotalBytes := some n, lastProgressPercent := 0 } =
                ({ flashTotalBytes := some n, lastProgressPercent := pct n tr }, [pct n tr]) := by
              simp [emitTransferPercent, hn, hv, hpeq]
            refine ⟨?_, ?_, ?_⟩
            · unfold progressInvC
              simp only [updateFlashProgress, hd, he, hv, if_neg hn]
            · simp only [updateFlashProgress, hd, he, hlp]
              refine List.chain'_cons.mpr ⟨by decide, List.chain'_cons.mpr ⟨pct_nonneg n tr, ?_⟩⟩
              simp
            · simp [updateFlashProgress, hd, he]
  | some t =>
    have hd : discoverSizeHint (combinedChars outL errL) st = (st, []) := by
      simp [discoverSizeHint, hT]
    have hinv' := hinv
    simp only [progressInvC, hT] at hinv'
    by_cases ht0 : t = 0
    · subst ht0
      rw [if_pos rfl] at hinv'
      have he : emitTransferPercent (combinedChars outL errL) st = (st, []) := by
        simp [emitTransferPercent, hT]
      refine ⟨?_, ?_, ?_⟩
      · unfold progressInvC
        simp only [updateFlashProgress, hd, he, hT, if_pos rfl]
        exact hinv'
      · simp [updateFlashProgress, hd, he]
      · simp [updateFlashProgress, hd, he]
    · rw [if_neg ht0] at hinv'
      cases hv : lastTransferValue (combinedChars outL errL) with
      | none =>
        have holdv : lastTransferValue oldC = none := by
          cases holdv : lastTransferValue oldC with
          | none => rfl
          | some w =>
            rw [holdv, hv] at hsub
            simp [measureLeB] at hsub
        rw [holdv] at hinv'
        have he : emitTransferPercent (combinedChars outL errL) st = (st, []) := by
          simp [emitTransferPercent, hT, ht0, hv]
        refine ⟨?_, ?_, ?_⟩
        · unfold progressInvC
          simp only [updateFlashProgress, hd, he, hT, if_neg ht0, hv]
          exact hinv'
        · simp [updateFlashProgress, hd, he]
        · simp [updateFlashProgress, hd, he]
      | some tr =>
        have hlow : st.lastProgressPercent ≤ pct t tr := by
          cases holdv : lastTransferValue oldC with
          | none =>
            rw [holdv] at hinv'
            rw [hinv']
            exact pct_nonneg t tr
          | some w =>
            rw [holdv] at hinv'
            rw [hinv']
            rw [holdv, hv] at hsub
            have hwle : w ≤ tr := by simpa [measureLeB] using hsub
            exact pct_mono t hwle
        by_cases hpeq : pct t tr = st.lastProgressPercent
        · have he : emitTransferPercent (combinedChars outL errL) st = (st, []) := by
            simp [emitTransferPercent, hT, ht0, hv, hpeq]
          refine ⟨?_, ?_, ?_⟩
          · unfold progressInvC
            simp only [updateFlashProgress, hd, he, hT, if_neg ht0, hv]
            exact hpeq.symm
          · simp [updateFlashProgress, hd, he]
          · simp [updateFlashProgress, hd, he]
        · have he : emitTransferPercent (combinedChars outL errL) st =
              ({ st with lastProgressPercent := pct t tr }, [pct t tr]) := by
            simp [emitTransferPercent, hT, ht0, hv, hpeq]
          refine ⟨?_, ?_, ?_⟩
          · unfold progressInvC
            simp only [updateFlashProgress, hd, he, hT, if_neg ht0, hv]
          · simp only [updateFlashProgress, hd, he]
            exact List.chain'_cons.mpr ⟨hlow, by simp⟩
          · simp [updateFlashProgress, hd, he]

theorem discoverSizeHint_events (combined : List Char) (st : FlashProgressState) :
    ∀ e ∈ (discoverSizeHint combined st).2, e = 0 := by
  intro e he
  unfold discoverSizeHint at he
  split at he
  · cases he
  · split at he
    · cases he
    · split at he
      · simpa using he
      · cases he

theorem emitTransferPercent_events (combined : List Char) (st : FlashProgressState) :
    ∀ e ∈ (emitTransferPercent combined st).2, 0 ≤ e ∧ e ≤ 100 := by
  intro e he
  unfold emitTransferPercent at he
  split at he
  · cases he
  · split at he
    · cases he
    · split at he
      · cases he
      · split at he
        · cases he
        · simp only [List.mem_singleton] at he
          rw [he]
          exact ⟨pct_nonneg _ _, pct_le_hundred _ _⟩

theorem updateFlashProgress_bounds (outL errL : List String) (st : FlashProgressState) :
    ∀ e ∈ (updateFlashProgress outL errL st).2, 0 ≤ e ∧ e ≤ 100 := by
  intro e he
  simp only [updateFlashProgress, List.mem_append] at he
  rcases he with he | he
  · have h0 := discoverSizeHint_events _ _ e he
    rw [h0]
    exact ⟨le_refl 0, by decide⟩
  · exact emitTransferPercent_events _ _ e he

theorem runProgressAux_bounds (cs : List StreamChunk) (b : TaskBuffers)
    (st : FlashProgressState) :
    ∀ e ∈ runProgressAux b st cs, 0 ≤ e ∧ e ≤ 100 := by
  induction cs generalizing b st with
  | nil => intro e he; cases he
  | cons c cs ih =>
    intro e he
    simp only [runProgressAux, List.mem_append] at he
    rcases he with he | he
    · exact updateFlashProgress_bounds _ _ _ e he
    · exact ih _ _ e he

/-- The most recent transfer value of the current combined buffer. -/
def currentLast (b : TaskBuffers) : Option Nat :=
  lastTransferValue (combinedChars b.outLines b.errLines)

/-- The most recent transfer value of the combined buffer after each
prefix of the chunk stream, starting with the current buffer. -/
def lastValueTrace (b : TaskBuffers) : List StreamChunk → List (Option Nat)
  | [] => [currentLast b]
  | c :: cs => currentLast b :: lastValueTrace (appendChunk b c) cs

theorem lastValueTrace_head (b : TaskBuffers) (cs : List StreamChunk) :
    (lastValueTrace b cs).head? = some (currentLast b) := by
  cases cs <;> rfl

theorem runProgressAux_chain (cs : List StreamChunk) (b : TaskBuffers)
    (st : FlashProgressState)
    (hinv : progressInvC (combinedChars b.outLines b.errLines) st)
    (hms : List.Chain' (fun a a' => measureLeB a a' = true) (lastValueTrace b cs)) :
    List.Chain' (· ≤ ·) (st.lastProgressPercent :: runProgressAux b st cs) := by
  induction cs generalizing b st with
  | nil => simp [runProgressAux]
  | cons c cs ih =>
    simp only [lastValueTrace] at hms
    have hms' := List.chain'_cons'.mp hms
    have hstep : measureLeB (currentLast b) (currentLast (appendChunk b c)) = true :=
      hms'.1 _ (lastValueTrace_head _ _)
    obtain ⟨hinv', hchain, hlast⟩ := updateFlashProgress_step
      (appendChunk b c).outLines (appendChunk b c).errLines st
      (combinedChars b.outLines b.errLines) hinv hstep
    have hrest := ih (appendChunk b c)
      (updateFlashProgress (appendChunk b c).outLines (appendChunk b c).errLines st).1
      hinv' hms'.2
    show List.Chain' (· ≤ ·) (st.lastProgressPercent ::
      ((updateFlashProgress (appendChunk b c).outLines (appendChunk b c).errLines st).2 ++
       runProgressAux (appendChunk b c)
         (updateFlashProgress (appendChunk b c).outLines (appendChunk b c).errLines st).1 cs))
    rw [← List.cons_append]
    refine List.Chain'.append hchain (List.chain'_cons'.mp hrest).2 ?_
    intro x hx y hy
    rw [hlast] at hx
    obtain rfl := Option.some.inj hx
    exact (List.chain'_cons'.mp hrest).1 y hy

/-- C4 counterexample: markers of the valid shape arriving as stdout then
stderr can make the combined-buffer scan report a smaller value after a
larger one, so the emitted percentage sequence 0, 100, 50 decreases,
refuting the claim over all interleavings of valid transfer markers. -/
theorem C4_counterexample_decreasing :
    progressTrace
      [.out ["FLASH_IMAGE_SIZE_BYTES=2000", "2000 bytes (2 kB) transferred in 2 s"],
       .err ["1000 bytes (1 kB) transferred in 1 s"]] = [0, 100, 50] ∧
    ¬ List.Chain' (· ≤ ·) ([0, 100, 50] : List Int) :=
  ⟨rfl, fun h => absurd (List.chain'_cons.mp (List.chain'_cons.mp h).2).1 (by decide)⟩

/-- C4 amended: every emitted progress percentage lies in [0, 100], and
whenever the most recent transfer value the scan extracts from the
accumulated combined output never falls below its previous value from one
chunk arrival to the next — as holds when a single transfer tool
periodically reports cumulative byte counts — the emitted percentage
sequence of a run is monotonically non-decreasing. -/
theorem C4_amended_progress_monotone_bounded (chunks : List StreamChunk)
    (hms : List.Chain' (fun a a' => measureLeB a a' = true)
      (lastValueTrace { outLines := [], errLines := [] } chunks)) :
    List.Chain' (· ≤ ·) (progressTrace chunks) ∧
    ∀ p ∈ progressTrace chunks, 0 ≤ p ∧ p ≤ 100 := by
  constructor
  · have h := runProgressAux_chain chunks { outLines := [], errLines := [] } initProgress
      rfl hms
    exact (List.chain'_cons'.mp h).2
  · exact runProgressAux_bounds chunks _ _

/-- Witness for C4 amended at a concrete run with increasing markers. -/
theorem C4_amended_progress_monotone_bounded_witness :
    List.Chain' (fun a a' => measureLeB a a' = true)
      (lastValueTrace { outLines := [], errLines := [] }
        [.out ["FLASH_IMAGE_SIZE_BYTES=2000"],
         .err ["1000 bytes (1 kB) transferred in 1 s"],
         .err ["1500 bytes (1.5 kB) transferred in 2 s"]]) ∧
    (List.Chain' (· ≤ ·) (progressTrace
      [.out ["FLASH_IMAGE_SIZE_BYTES=2000"],
       .err ["1000 bytes (1 kB) transferred in 1 s"],
       .err ["1500 bytes (1.5 kB) transferred in 2 s"]]) ∧
    ∀ p ∈ progressTrace
      [.out ["FLASH_IMAGE_SIZE_BYTES=2000"],
       .err ["1000 bytes (1 kB) transferred in 1 s"],
       .err ["1500 bytes (1.5 kB) transferred in 2 s"]], 0 ≤ p ∧ p ≤ 100) :=
  ⟨by
    rw [show lastValueTrace { outLines := [], errLines := [] }
        [.out ["FLASH_IMAGE_SIZE_BYTES=2000"],
         .err ["1000 bytes (1 kB) transferred in 1 s"],
         .err ["1500 bytes (1.5 kB) transferred in 2 s"]] =
        [none, none, some 1000, some 1500] from rfl]
    exact List.chain'_cons.mpr ⟨rfl, List.chain'_cons.mpr ⟨rfl,
      List.chain'_cons.mpr ⟨by decide, List.chain'_singleton _⟩⟩⟩,
   C4_amended_progress_monotone_bounded _ (by
    rw [show lastValueTrace { outLines := [], errLines := [] }
        [.out ["FLASH_IMAGE_SIZE_BYTES=2000"],
         .err ["1000 bytes (1 kB) transferred in 1 s"],
         .err ["1500 bytes (1.5 kB) transferred in 2 s"]] =
        [none, none, some 1000, some 1500] from rfl]
    exact List.chain'_cons.mpr ⟨rfl, List.chain'_cons.mpr ⟨rfl,
      List.chain'_cons.mpr ⟨by decide, List.chain'_singleton _⟩⟩⟩)⟩

end CheckCardGui
